import Mathlib

/- Shallow embedding of the Node.js task-queueing service (src/unnamed/part_000):
   an Express POST /task handler performing Redis-based per-user rate limiting
   (lines 79-136), and a Bull queue processor enforcing a per-user execution
   lock and a 1000 ms spacing between consecutive executions (lines 141-181).
   Redis keyspaces are modelled as association lists; absolute times are
   milliseconds (Nat for the admission side, Int for the worker side).
   TTLd keys store their absolute expiry time; a key is alive at time t
   exactly when t < expiry, matching Redis EX semantics. -/

/-- Association-list lookup by decidable equality (models a Redis GET over one
keyspace, e.g. the keys sharing a prefix). -/
def lookupA {α β : Type} [DecidableEq α] : List (α × β) → α → Option β
  | [], _ => none
  | (k, v) :: rest, k' => if k = k' then some v else lookupA rest k'

/-- Association-list write (models a Redis SET of one key: replaces the
binding if the key is present, appends it otherwise). -/
def setA {α β : Type} [DecidableEq α] : List (α × β) → α → β → List (α × β)
  | [], k, v => [(k, v)]
  | (k', v') :: rest, k, v =>
      if k' = k then (k, v) :: setA rest k v else (k', v') :: setA rest k v

/-- Association-list delete (models a Redis DEL of one key). -/
def removeA {α β : Type} [DecidableEq α] : List (α × β) → α → List (α × β)
  | [], _ => []
  | (k', v') :: rest, k =>
      if k' = k then removeA rest k else (k', v') :: removeA rest k

theorem lookupA_setA_self {α β : Type} [DecidableEq α] (l : List (α × β))
    (k : α) (v : β) : lookupA (setA l k v) k = some v := by
  induction l with
  | nil => simp [setA, lookupA]
  | cons p rest ih =>
    obtain ⟨a, b⟩ := p
    by_cases hp : a = k
    · simp [setA, lookupA, hp]
    · simp [setA, lookupA, hp, ih]

theorem lookupA_setA_ne {α β : Type} [DecidableEq α] (l : List (α × β))
    (k k' : α) (v : β) (h : k' ≠ k) :
    lookupA (setA l k v) k' = lookupA l k' := by
  have hk : ¬ k = k' := fun e => h e.symm
  induction l with
  | nil => simp [setA, lookupA, hk]
  | cons p rest ih =>
    obtain ⟨a, b⟩ := p
    by_cases hp : a = k
    · have h1 : ¬ a = k' := fun e => h (e.symm.trans hp)
      simp [setA, lookupA, hp, h1, hk, ih]
    · by_cases h2 : a = k'
      · simp [setA, lookupA, hp, h2, h]
      · simp [setA, lookupA, hp, h2, ih]

theorem lookupA_removeA_self {α β : Type} [DecidableEq α] (l : List (α × β))
    (k : α) : lookupA (removeA l k) k = none := by
  induction l with
  | nil => rfl
  | cons p rest ih =>
    obtain ⟨a, b⟩ := p
    by_cases hp : a = k
    · simp [removeA, hp, ih]
    · simp [removeA, lookupA, hp, ih]

theorem removeA_of_lookupA_none {α β : Type} [DecidableEq α] (l : List (α × β))
    (k : α) (h : lookupA l k = none) : removeA l k = l := by
  induction l with
  | nil => rfl
  | cons p rest ih =>
    obtain ⟨a, b⟩ := p
    by_cases hp : a = k
    · exfalso
      simp [lookupA, hp] at h
    · simp only [lookupA, hp, if_false] at h
      simp [removeA, hp, ih h]

/- ### Rate Admission Controller (POST /task handler, lines 79-136) -/

/-- Per-minute cap from rateLimitConfig (line 41): tasksPerMinute = 20. -/
def tasksPerMinute : Nat := 20

/-- The Redis state the admission handler touches: Window Counters
(keys rateLimit:user:minute, value plus optional absolute expiry in ms)
and Rate-Exceeded Flags (keys rateLimitExceeded:user, storing the absolute
expiry in ms of the flag value "true"). -/
structure Store where
  counters : List ((String × Nat) × (Nat × Option Nat))
  flags : List (String × Nat)
deriving DecidableEq

/-- The HTTP response of the handler: 400 "User ID is required",
200 "Task queued successfully", 429 "Rate limit exceeded, task delayed to
next minute." (carrying the Bull delay in ms), or 500 "Internal server
error". -/
inductive HandlerRes
  | badRequest
  | queued
  | delayed (ms : Nat)
  | serverErr
deriving DecidableEq

/-- GET rateLimitExceeded:user (line 95): the flag is observed when the key
is alive, i.e. the current time is before its expiry. -/
def flagGet (st : Store) (u : String) (now : Nat) : Bool :=
  match lookupA st.flags u with
  | some e => decide (now < e)
  | none => false

/-- SET rateLimitExceeded:user true EX 60 (line 118): stores absolute
expiry e. -/
def setFlag (st : Store) (u : String) (e : Nat) : Store :=
  { st with flags := setA st.flags u e }

/-- INCR rateLimit:user:minute (line 105): a live key is incremented keeping
its TTL; an absent or expired key is created with value 1 and no TTL.
Returns the post-increment value. -/
def incrCounter (st : Store) (u : String) (m : Nat) (now : Nat) : Nat × Store :=
  match lookupA st.counters (u, m) with
  | some (c, some e) =>
      if now < e then
        (c + 1, { st with counters := setA st.counters (u, m) (c + 1, some e) })
      else
        (1, { st with counters := setA st.counters (u, m) (1, none) })
  | some (c, none) =>
      (c + 1, { st with counters := setA st.counters (u, m) (c + 1, none) })
  | none => (1, { st with counters := setA st.counters (u, m) (1, none) })

/-- EXPIRE rateLimit:user:minute 60 (line 109): sets the absolute expiry of
an existing key; no-op if the key is absent. -/
def expireCounter (st : Store) (u : String) (m : Nat) (e : Nat) : Store :=
  match lookupA st.counters (u, m) with
  | some (c, _) => { st with counters := setA st.counters (u, m) (c, some e) }
  | none => st

/-- One admission call: the body of app.post("/task") (lines 79-136).
`available` models whether Redis is reachable during the call: when it is
false every Redis command throws, landing in the catch block (lines 132-135)
before any state change or enqueue. `userId` is req.body.user_id
(none = absent; the JS truthiness test at line 83 also rejects the empty
string). Returns the HTTP response, the updated store, and the list of Bull
queue items added, each as (user, delay in ms). -/
def postTask (available : Bool) (userId : Option String) (now : Nat)
    (st : Store) : HandlerRes × Store × List (String × Nat) :=
  match userId with
  | none => (.badRequest, st, [])
  | some u =>
    if u = "" then (.badRequest, st, [])
    else if available = false then (.serverErr, st, [])
    else
      let currentMinute := now / 60000
      if flagGet st u now then
        let delayTime := 60000 - now % 60000
        (.delayed delayTime, st, [(u, delayTime)])
      else
        let p := incrCounter st u currentMinute now
        let taskCount := p.1
        let st1 := p.2
        let st2 :=
          if taskCount = 1 then expireCounter st1 u currentMinute (now + 60000)
          else st1
        if taskCount > tasksPerMinute then
          let st3 := setFlag st2 u (now + 60000)
          let delayTime := 60000 - now % 60000
          (.delayed delayTime, st3, [(u, delayTime)])
        else
          (.queued, st2, [(u, 0)])

/-- Run a sequence of admission calls for one user at the given timestamps,
threading the store (Redis serializes the commands; each handler run is
taken as atomic), collecting the responses. -/
def runPosts (u : String) : List Nat → Store → List HandlerRes × Store
  | [], st => ([], st)
  | t :: ts, st =>
    let s := postTask true (some u) t st
    let rest := runPosts u ts s.2.1
    (s.1 :: rest.1, rest.2)

def isQueued : HandlerRes → Bool
  | .queued => true
  | _ => false

def isDelayed : HandlerRes → Bool
  | .delayed _ => true
  | _ => false

/-- Number of 200 "Task queued successfully" responses in a run. -/
def countQueued (rs : List HandlerRes) : Nat := rs.countP isQueued

example : countQueued (runPosts "123" [0, 1, 2] { counters := [], flags := [] }).1 = 3 := by
  decide

/- ### Worker side: execution lock, spacing, queue processor (lines 44-181) -/

/-- The Redis state the worker touches: lock:user keys (value "locked",
modelled by the absolute expiry in ms of the 5-second lease, line 52) and
lastExecution:user keys (the stored last-execution timestamp, line 174). -/
structure WStore where
  lock : List (String × Int)
  lastExecution : List (String × Int)
deriving DecidableEq

/-- acquireLock (lines 50-54): redis.set(lockKey, "locked", "NX", "EX", 5).
NX succeeds exactly when the key is absent or TTL-expired at the current
time; success stores a lease expiring 5000 ms later and returns true. -/
def acquireLock (st : WStore) (u : String) (now : Int) : Bool × WStore :=
  match lookupA st.lock u with
  | some e =>
      if now < e then (false, st)
      else (true, { st with lock := setA st.lock u (now + 5000) })
  | none => (true, { st with lock := setA st.lock u (now + 5000) })

/-- releaseLock (lines 57-60): an unconditional redis.del(lockKey); no
ownership token is checked. -/
def releaseLock (st : WStore) (u : String) : WStore :=
  { st with lock := removeA st.lock u }

/-- The sleep the processor performs before invoking the task
(lines 159-167): 0 when no lastExecution timestamp is stored, else
max(1000 - (now - timestamp), 0). -/
def spacingDelay (last : Option Int) (now : Int) : Int :=
  match last with
  | none => 0
  | some t => max (1000 - (now - t)) 0

/-- Outcome of `await task(user_id)` (line 171): the executor either
resolves or throws. -/
inductive TaskResult
  | ok
  | error
deriving DecidableEq

/-- One run of the taskQueue.process callback (lines 141-181) for a job of
user `u`, entered at time `now`, the instant the acquireLock retry loop
(lines 146-152) succeeds; the lock lease is therefore written at `now`.
`res` is the executor outcome and `dur` the executor duration in ms.
Returns the resulting store, whether the callback resolves (Bull then marks
the job completed; the catch block at lines 178-180 only logs, so the
callback resolves even when the executor throws), and the absolute time the
executor was invoked. On success the callback writes
lastExecution := Date.now() after the task (line 174) and releases the lock
(line 177); when the executor throws, control jumps to the catch, so
neither happens. -/
def processJob (st : WStore) (u : String) (now : Int) (res : TaskResult)
    (dur : Int) : WStore × Bool × Int :=
  let stL := { st with lock := setA st.lock u (now + 5000) }
  let last := lookupA stL.lastExecution u
  let invokeTime := now + spacingDelay last now
  match res with
  | .ok =>
      let tEnd := invokeTime + dur
      let st2 := { stL with lastExecution := setA stL.lastExecution u tEnd }
      (releaseLock st2 u, true, invokeTime)
  | .error => (stL, true, invokeTime)

/-- A sequence of acquireLock attempts for one user at the given times,
threading the store (each SET NX is atomic in Redis). -/
def runAcquires (u : String) : List Int → WStore → List Bool × WStore
  | [], st => ([], st)
  | t :: ts, st =>
    let p := acquireLock st u t
    let rest := runAcquires u ts p.2
    (p.1 :: rest.1, rest.2)

/- ### Interleaved-replica semantics for the processor (for claim C2) -/

/-- Visible atomic actions a processor run performs against Redis, in
program order: acquire the lock (the successful SET NX, which also covers
the GET of lastExecution issued immediately after it, lines 146-156),
invoke the executor once the spacing sleep elapses (line 171), write
lastExecution after the task (line 174), delete the lock (line 177). -/
inductive Act
  | acquire
  | invoke
  | write
  | del
deriving DecidableEq

/-- A timestamped event of one replica's processor run; `pid` identifies
the run. -/
structure Ev where
  t : Int
  pid : Nat
  act : Act
deriving DecidableEq

/-- Program counter of one processor run, carrying the run's acquire time
`a` (hence its lease expiry a + 5000) throughout: lease obtained at `a`
having read lastExecution `lr`; executor invoked at `i`; timestamp written;
lock deleted (run finished). -/
inductive PState
  | acquired (a : Int) (lr : Option Int)
  | invoked (a : Int) (i : Int)
  | written (a : Int)
  | done
deriving DecidableEq

/-- Global state of the interleaving: the lock key's expiry (if present),
the lastExecution value (if present), the per-run program counters, and the
time of the last event. -/
structure TrState where
  lock : Option Int
  last : Option Int
  procs : List (Nat × PState)
  time : Int
deriving DecidableEq

/-- Validity of one event against the global state, mirroring the processor
code: acquire succeeds only on an absent or expired key and installs a
5000 ms lease (line 52) while capturing the lastExecution value it will
read (line 156); invoke happens exactly when the spacing sleep from the
captured value elapses (lines 159-167); write stores the completion time,
any time at or after the invocation (lines 171-174); del removes the lock
key unconditionally (lines 57-60, 177). Event times never decrease. -/
def stepEv (s : TrState) (e : Ev) : Option TrState :=
  if e.t < s.time then none
  else
    match e.act with
    | .acquire =>
      match lookupA s.procs e.pid with
      | some _ => none
      | none =>
        match s.lock with
        | some ex =>
            if e.t < ex then none
            else some { lock := some (e.t + 5000), last := s.last,
                        procs := setA s.procs e.pid (.acquired e.t s.last),
                        time := e.t }
        | none => some { lock := some (e.t + 5000), last := s.last,
                         procs := setA s.procs e.pid (.acquired e.t s.last),
                         time := e.t }
    | .invoke =>
      match lookupA s.procs e.pid with
      | some (.acquired a lr) =>
          if e.t = a + spacingDelay lr a then
            some { s with procs := setA s.procs e.pid (.invoked a e.t),
                          time := e.t }
          else none
      | _ => none
    | .write =>
      match lookupA s.procs e.pid with
      | some (.invoked a i) =>
          if i ≤ e.t then
            some { s with last := some e.t,
                          procs := setA s.procs e.pid (.written a),
                          time := e.t }
          else none
      | _ => none
    | .del =>
      match lookupA s.procs e.pid with
      | some (.written _) =>
          some { s with lock := none,
                        procs := setA s.procs e.pid .done, time := e.t }
      | _ => none

/-- The empty initial store: no lock, no stored timestamp, no runs. -/
def traceInit : TrState :=
  { lock := none, last := none, procs := [], time := 0 }

/-- Run a whole event list from the empty initial state. -/
def runTrace (evs : List Ev) : Option TrState :=
  evs.foldlM stepEv traceInit

/-- A trace is valid when every event is enabled in turn. -/
def validTrace (evs : List Ev) : Bool :=
  (runTrace evs).isSome

/-- The executor invocation times of a trace, in trace order. -/
def invokeTimes (evs : List Ev) : List Int :=
  evs.filterMap (fun e => match e.act with
    | .invoke => some e.t
    | _ => none)

def minGapOkFrom (prev : Int) : List Int → Bool
  | [] => true
  | i :: rest => decide (prev + 1000 ≤ i) && minGapOkFrom i rest

/-- Whether consecutive invocation times are at least 1000 ms apart
(rateLimitConfig.tasksPerSecond = 1, line 40). -/
def minGapOk : List Int → Bool
  | [] => true
  | i :: rest => minGapOkFrom i rest

/-- Per-event lease check: a run's timestamp write and lock delete must
happen while the run's own 5 s lease (taken at its acquire time) is still
live. This is the design assumption the spec states for the Execution Lock
(its TTL is chosen as a bound on worst-case task duration); runs whose
executor fails never reach write or del, so they are unconstrained. -/
def evLeaseOk (s : TrState) (e : Ev) : Bool :=
  match e.act, lookupA s.procs e.pid with
  | .write, some (.invoked a _) => decide (e.t < a + 5000)
  | .del, some (.written a) => decide (e.t < a + 5000)
  | _, _ => true

/-- Run an event list, additionally checking at each step that writes and
deletes respect their run's lease (evLeaseOk); fails on the first event
that is not enabled or breaks its lease. -/
def runTraceLease : List Ev → TrState → Option TrState
  | [], s => some s
  | e :: evs, s =>
    if evLeaseOk s e then
      match stepEv s e with
      | some s1 => runTraceLease evs s1
      | none => none
    else none

/- ### Helper lemmas about processJob and incrCounter -/

theorem processJob_invoke_none (st : WStore) (u : String) (now : Int)
    (res : TaskResult) (dur : Int) (h : lookupA st.lastExecution u = none) :
    (processJob st u now res dur).2.2 = now := by
  cases res <;> simp [processJob, spacingDelay, h]

theorem processJob_invoke_some (st : WStore) (u : String) (now : Int)
    (res : TaskResult) (dur : Int) (w : Int)
    (h : lookupA st.lastExecution u = some w) :
    (processJob st u now res dur).2.2 = now + max (1000 - (now - w)) 0 := by
  cases res <;> simp [processJob, spacingDelay, h]

theorem processJob_ok_last (st : WStore) (u : String) (now : Int) (dur : Int) :
    (processJob st u now .ok dur).1.lastExecution =
      setA st.lastExecution u ((processJob st u now .ok dur).2.2 + dur) := by
  simp [processJob, releaseLock]

theorem incrCounter_flags (st : Store) (u : String) (m now : Nat) :
    ((incrCounter st u m now).2).flags = st.flags := by
  unfold incrCounter
  cases h : lookupA st.counters (u, m) with
  | none => rfl
  | some p =>
    obtain ⟨c, oe⟩ := p
    cases oe with
    | none => rfl
    | some e =>
      by_cases he : now < e <;> simp [he]

/- ### Claims about the admission handler -/

/-- Claim C9: an admission call with a missing work key (absent user_id, or
the empty string, which the JS truthiness test at line 83 also treats as
missing) is rejected synchronously with HTTP 400 before any Store
interaction: the store is unchanged and nothing is enqueued, whether or not
Redis is reachable. -/
theorem postTask_missing_key_rejected (b : Option String) (av : Bool)
    (now : Nat) (st : Store) (hb : b = none ∨ b = some "") :
    postTask av b now st = (.badRequest, st, []) := by
  rcases hb with h | h <;> subst h <;> rfl

theorem postTask_missing_key_rejected_witness :
    postTask true none 0 { counters := [], flags := [] } =
      (.badRequest, { counters := [], flags := [] }, []) :=
  postTask_missing_key_rejected none true 0 { counters := [], flags := [] }
    (Or.inl rfl)

/-- Claim C6: if the Store is unavailable during an admission call with a
valid work key, every Redis command throws and the catch block (lines
132-135) answers HTTP 500: the call never returns 200, never changes the
store, and never enqueues a work item. -/
theorem postTask_fails_closed (u : String) (now : Nat) (st : Store)
    (hu : u ≠ "") : postTask false (some u) now st = (.serverErr, st, []) := by
  simp [postTask, hu]

theorem postTask_fails_closed_witness :
    postTask false (some "123") 5 { counters := [], flags := [] } =
      (.serverErr, { counters := [], flags := [] }, []) :=
  postTask_fails_closed "123" 5 { counters := [], flags := [] } (by decide)

/-- Claim C10: while the Rate-Exceeded Flag is set for a work key, an
admission call for that key answers 429 with delay 60000 - now % 60000 and
enqueues the item with that delay, leaving the whole store - in particular
the Window Counter and its TTL - unchanged: the flag check (line 95)
precedes the INCR (line 105), so delayed requests consume no slots of the
per-window cap. -/
theorem postTask_flagged_no_increment (u : String) (now : Nat) (st : Store)
    (hu : u ≠ "") (hflag : flagGet st u now = true) :
    postTask true (some u) now st =
      (.delayed (60000 - now % 60000), st, [(u, 60000 - now % 60000)]) := by
  simp [postTask, hu, hflag]

theorem postTask_flagged_no_increment_witness :
    postTask true (some "123") 10000
        { counters := [], flags := [("123", 50000)] } =
      (.delayed 50000, { counters := [], flags := [("123", 50000)] },
        [("123", 50000)]) := by
  have h := postTask_flagged_no_increment "123" 10000
    { counters := [], flags := [("123", 50000)] } (by decide) (by decide)
  simpa using h

/-- Claim C4, counterexample: at now = 30000 (half way into window 0), with
the Window Counter for ("123", 0) at the cap (20, TTL to 60000) and no flag
set, the handler answers 429 with delay 30000 (the window remainder) but
stores the Rate-Exceeded Flag with absolute expiry 90000 = now + 60000,
i.e. a TTL of a full 60 s, not the 30000 ms remainder the claim states
(which would be expiry 60000): line 118 runs SET ... "EX", 60 with a fixed
60-second TTL. -/
theorem postTask_flag_ttl_cex :
    (postTask true (some "123") 30000
        { counters := [(("123", 0), (20, some 60000))], flags := [] }).1 =
      .delayed 30000 ∧
    lookupA (postTask true (some "123") 30000
        { counters := [(("123", 0), (20, some 60000))], flags := [] }).2.1.flags
        "123" = some 90000 ∧
    (90000 : Nat) ≠ 30000 + (60000 - 30000 % 60000) := by
  refine ⟨by decide, by decide, by decide⟩

/-- Claim C4 (amended): when an admission call's post-increment Window
Counter first exceeds the per-window cap of 20, the Rate-Exceeded Flag for
that work key is set with a fixed TTL of 60 s (absolute expiry now + 60000,
line 118), not the remainder of the window; the call returns 429 with delay
equal to the remainder of the window (60000 - now % 60000) and enqueues the
item with that same delay. -/
theorem postTask_exceed_sets_flag (st : Store) (u : String) (now : Nat)
    (hu : u ≠ "") (hflag : flagGet st u now = false)
    (hcnt : tasksPerMinute < (incrCounter st u (now / 60000) now).1) :
    (postTask true (some u) now st).1 = .delayed (60000 - now % 60000) ∧
    lookupA (postTask true (some u) now st).2.1.flags u = some (now + 60000) ∧
    (postTask true (some u) now st).2.2 = [(u, 60000 - now % 60000)] := by
  have h1 : ¬ (incrCounter st u (now / 60000) now).1 = 1 := by
    intro e
    rw [e] at hcnt
    exact absurd hcnt (by decide)
  refine ⟨?_, ?_, ?_⟩ <;>
    simp [postTask, hu, hflag, h1, hcnt, setFlag, incrCounter_flags,
      lookupA_setA_self]

theorem postTask_exceed_sets_flag_witness :
    (postTask true (some "123") 30000
        { counters := [(("123", 0), (20, some 60000))], flags := [] }).1 =
      .delayed (60000 - 30000 % 60000) ∧
    lookupA (postTask true (some "123") 30000
        { counters := [(("123", 0), (20, some 60000))], flags := [] }).2.1.flags
        "123" = some (30000 + 60000) ∧
    (postTask true (some "123") 30000
        { counters := [(("123", 0), (20, some 60000))], flags := [] }).2.2 =
      [("123", 60000 - 30000 % 60000)] :=
  postTask_exceed_sets_flag
    { counters := [(("123", 0), (20, some 60000))], flags := [] }
    "123" 30000 (by decide) (by decide) (by decide)

/- ### Claims about the lock -/

/-- Claim C3: acquireLock is a single conditional set-if-absent with a 5 s
TTL; from a state with no lock for the key, among any series of acquire
attempts racing inside the first holder's lease window [t1, t1 + 5000),
exactly the first succeeds and every other attempt fails while the lock key
exists. -/
theorem acquireLock_mutual_exclusion (u : String) (st : WStore) (t1 : Int)
    (rest : List Int) (h0 : lookupA st.lock u = none)
    (hall : ∀ t ∈ rest, t1 ≤ t ∧ t < t1 + 5000) :
    (runAcquires u (t1 :: rest) st).1 =
      true :: List.replicate rest.length false := by
  have hfail : ∀ (ts : List Int) (st' : WStore),
      lookupA st'.lock u = some (t1 + 5000) → (∀ t ∈ ts, t < t1 + 5000) →
      (runAcquires u ts st').1 = List.replicate ts.length false := by
    intro ts
    induction ts with
    | nil => intro st' _ _; rfl
    | cons t ts ih =>
      intro st' hl hts
      have ht : t < t1 + 5000 := hts t (by simp)
      simp only [runAcquires, acquireLock, hl, if_pos ht]
      simp [ih st' hl (fun t' ht' => hts t' (by simp [ht'])),
        List.replicate_succ]
  simp only [runAcquires, acquireLock, h0]
  have hrest := hfail rest
    { lock := setA st.lock u (t1 + 5000), lastExecution := st.lastExecution }
    (lookupA_setA_self st.lock u (t1 + 5000)) (fun t ht => (hall t ht).2)
  simp [hrest]

theorem acquireLock_mutual_exclusion_witness :
    (runAcquires "u" [0, 100, 2000, 4999] { lock := [], lastExecution := [] }).1 =
      true :: List.replicate 3 false :=
  acquireLock_mutual_exclusion "u" { lock := [], lastExecution := [] } 0
    [100, 2000, 4999] rfl (by decide)

/-- Claim C7, counterexample: holder A acquires the lock for "u" at time 0
(lease to 5000); after A's lease expires, B re-acquires at 6000 (lease to
11000, still live); A's release - an unconditional DEL, lines 57-60 - then
deletes B's lock: the lookup yields none where the claim requires B's lease
(some 11000) to survive. -/
theorem releaseLock_reclaims_cex :
    (acquireLock { lock := [], lastExecution := [] } "u" 0).1 = true ∧
    (acquireLock (acquireLock { lock := [], lastExecution := [] } "u" 0).2
        "u" 6000).1 = true ∧
    lookupA (acquireLock (acquireLock { lock := [], lastExecution := [] }
        "u" 0).2 "u" 6000).2.lock "u" = some 11000 ∧
    lookupA (releaseLock (acquireLock
        (acquireLock { lock := [], lastExecution := [] } "u" 0).2
        "u" 6000).2 "u").lock "u" = none := by
  refine ⟨by decide, by decide, by decide, by decide⟩

/-- Claim C7 (amended): releaseLock is an unconditional DEL of the lock key
(no ownership token is checked, lines 57-60): after it the lock key is
always absent - in particular a release issued after the caller's lease
expired deletes a lock that a different owner has since re-acquired; it is
a no-op only when the lock key is already absent from the store. -/
theorem releaseLock_unconditional (st : WStore) (u : String) :
    lookupA (releaseLock st u).lock u = none ∧
    (lookupA st.lock u = none → releaseLock st u = st) := by
  constructor
  · exact lookupA_removeA_self st.lock u
  · intro h
    simp [releaseLock, removeA_of_lookupA_none st.lock u h]

theorem releaseLock_unconditional_witness :
    lookupA (releaseLock { lock := [("u", 11000)], lastExecution := [] }
        "u").lock "u" = none :=
  (releaseLock_unconditional { lock := [("u", 11000)], lastExecution := [] }
    "u").1

/- ### Claims about the queue processor -/

/-- Claim C5 (code bug): a processor run for user "123" entered at 2000 with
stored last-execution timestamp 0 whose executor throws leaves the lock
held (lock:123 still present with lease expiry 7000: releaseLock at line
177 is skipped when line 171 throws), writes no new timestamp, and the
callback still resolves (the catch at lines 178-180 only logs), so Bull
acknowledges the job as completed: contrary to the claim, the lock is not
released and the failure is not propagated to the queue's retry
mechanism. -/
theorem processJob_failure_swallowed :
    processJob { lock := [], lastExecution := [("123", 0)] } "123" 2000
        .error 0 =
      ({ lock := [("123", 7000)], lastExecution := [("123", 0)] }, true,
        2000) := by
  rfl

/-- Claim C8: the spacing wait before executing a task computes exactly as
stated: with no stored Last-Execution Timestamp for the key the executor is
invoked immediately at entry time `now`; with stored timestamp t it is
invoked after a sleep of max(1000 - (now - t), 0) ms (lines 154-167). -/
theorem processJob_spacing_formula (st : WStore) (u : String) (now : Int)
    (res : TaskResult) (dur : Int) :
    (lookupA st.lastExecution u = none →
      (processJob st u now res dur).2.2 = now) ∧
    (∀ t, lookupA st.lastExecution u = some t →
      (processJob st u now res dur).2.2 = now + max (1000 - (now - t)) 0) := by
  exact ⟨fun h => processJob_invoke_none st u now res dur h,
    fun t h => processJob_invoke_some st u now res dur t h⟩

theorem processJob_spacing_formula_witness :
    (processJob { lock := [], lastExecution := [("123", 500)] } "123" 1000
        .ok 0).2.2 = 1000 + max (1000 - (1000 - 500)) 0 :=
  (processJob_spacing_formula { lock := [], lastExecution := [("123", 500)] }
    "123" 1000 .ok 0).2 500 (by decide)

/- ### Claim C1: per-window cap over a run of admission calls -/

/-- Invariant carried through a run of in-window admission calls: `a` is the
number of 200 responses produced so far for user `u` in window `W`. Either
the Window Counter for (u, W) is absent and a = 0, or it holds count c with
a TTL reaching at least the end of the window, a is at most min(c, 20), and
whenever c exceeds the cap the Rate-Exceeded Flag is set with an expiry
reaching at least the end of the window. -/
def InvC1 (u : String) (W : Nat) (a : Nat) (st : Store) : Prop :=
  match lookupA st.counters (u, W) with
  | none => a = 0
  | some (c, oe) =>
      (∃ e, oe = some e ∧ (W + 1) * 60000 ≤ e) ∧ a ≤ c ∧ a ≤ 20 ∧
        (20 < c → ∃ f, lookupA st.flags u = some f ∧ (W + 1) * 60000 ≤ f)

theorem postTask_step_inv (u : String) (W : Nat) (hu : u ≠ "") (t : Nat)
    (hlo : W * 60000 ≤ t) (hhi : t < (W + 1) * 60000) (a : Nat) (st : Store)
    (hInv : InvC1 u W a st) :
    InvC1 u W
      (a + (if isQueued (postTask true (some u) t st).1 then 1 else 0))
      (postTask true (some u) t st).2.1 := by
  have hW : t / 60000 = W := by omega
  by_cases hf : flagGet st u t
  · have hpt : postTask true (some u) t st =
        (.delayed (60000 - t % 60000), st, [(u, 60000 - t % 60000)]) := by
      simp [postTask, hu, hf]
    rw [hpt]
    simpa [isQueued] using hInv
  · have hf' : flagGet st u t = false := by simpa using hf
    cases hc : lookupA st.counters (u, W) with
    | none =>
      have ha : a = 0 := by
        simp only [InvC1, hc] at hInv
        exact hInv
      have hpt : postTask true (some u) t st =
          (.queued, Store.mk
            (setA (setA st.counters (u, W) (1, none)) (u, W)
              (1, some (t + 60000))) st.flags, [(u, 0)]) := by
        simp [postTask, hu, hf', hW, incrCounter, hc, expireCounter,
          lookupA_setA_self, tasksPerMinute]
      rw [hpt]
      show InvC1 u W (a + 1)
        (Store.mk (setA (setA st.counters (u, W) (1, none)) (u, W)
          (1, some (t + 60000))) st.flags)
      simp only [InvC1, lookupA_setA_self]
      refine ⟨⟨t + 60000, rfl, by omega⟩, by omega, by omega, ?_⟩
      intro h20
      exact absurd h20 (by omega)
    | some p =>
      obtain ⟨c, oe⟩ := p
      simp only [InvC1, hc] at hInv
      obtain ⟨⟨e, hoe, he⟩, hac, ha20, hfl⟩ := hInv
      subst hoe
      have hte : t < e := by omega
      by_cases h1 : c = 0
      · subst h1
        have hi : incrCounter st u W t =
            (1, Store.mk (setA st.counters (u, W) (1, some e)) st.flags) := by
          simp [incrCounter, hc, hte]
        have hpt : postTask true (some u) t st =
            (.queued, Store.mk
              (setA (setA st.counters (u, W) (1, some e)) (u, W)
                (1, some (t + 60000))) st.flags, [(u, 0)]) := by
          simp [postTask, hu, hf', hW, hi, expireCounter, lookupA_setA_self,
            tasksPerMinute]
        rw [hpt]
        show InvC1 u W (a + 1)
          (Store.mk (setA (setA st.counters (u, W) (1, some e)) (u, W)
            (1, some (t + 60000))) st.flags)
        simp only [InvC1, lookupA_setA_self]
        refine ⟨⟨t + 60000, rfl, by omega⟩, by omega, by omega, ?_⟩
        intro h20
        exact absurd h20 (by omega)
      · have hi : incrCounter st u W t =
            (c + 1,
              Store.mk (setA st.counters (u, W) (c + 1, some e)) st.flags) := by
          simp [incrCounter, hc, hte]
        have h1' : ¬ (c + 1 = 1) := by omega
        by_cases h2 : tasksPerMinute < c + 1
        · have hpt : postTask true (some u) t st =
              (.delayed (60000 - t % 60000),
                Store.mk (setA st.counters (u, W) (c + 1, some e))
                  (setA st.flags u (t + 60000)), [(u, 60000 - t % 60000)]) := by
            simp [postTask, hu, hf', hW, hi, h1', h2, setFlag]
          rw [hpt]
          show InvC1 u W (a + 0)
            (Store.mk (setA st.counters (u, W) (c + 1, some e))
              (setA st.flags u (t + 60000)))
          simp only [InvC1, lookupA_setA_self]
          refine ⟨⟨e, rfl, he⟩, by omega, by omega, ?_⟩
          intro _
          exact ⟨t + 60000, rfl, by omega⟩
        · have hpt : postTask true (some u) t st =
              (.queued,
                Store.mk (setA st.counters (u, W) (c + 1, some e)) st.flags,
                [(u, 0)]) := by
            simp [postTask, hu, hf', hW, hi, h1', h2]
          rw [hpt]
          show InvC1 u W (a + 1)
            (Store.mk (setA st.counters (u, W) (c + 1, some e)) st.flags)
          simp only [InvC1, lookupA_setA_self]
          have hcap : c + 1 ≤ 20 := by
            simp only [tasksPerMinute] at h2
            omega
          refine ⟨⟨e, rfl, he⟩, by omega, by omega, ?_⟩
          intro h20
          exact absurd h20 (by omega)

theorem runPosts_inv (u : String) (W : Nat) (hu : u ≠ "") :
    ∀ (ts : List Nat) (st : Store) (a : Nat),
      (∀ t ∈ ts, W * 60000 ≤ t ∧ t < (W + 1) * 60000) → InvC1 u W a st →
      InvC1 u W (a + countQueued (runPosts u ts st).1) (runPosts u ts st).2
  | [], st, a, _, hInv => by
      simpa [runPosts, countQueued] using hInv
  | t :: ts, st, a, hts, hInv => by
      have hstep := postTask_step_inv u W hu t (hts t (by simp)).1
        (hts t (by simp)).2 a st hInv
      have hrest := runPosts_inv u W hu ts (postTask true (some u) t st).2.1
        (a + (if isQueued (postTask true (some u) t st).1 then 1 else 0))
        (fun t' ht' => hts t' (by simp [ht'])) hstep
      have harith :
          a + countQueued (runPosts u (t :: ts) st).1 =
            a + (if isQueued (postTask true (some u) t st).1 then 1 else 0) +
              countQueued (runPosts u ts (postTask true (some u) t st).2.1).1 := by
        simp [runPosts, countQueued, List.countP_cons]
        omega
      rw [show (runPosts u (t :: ts) st).2 =
        (runPosts u ts (postTask true (some u) t st).2.1).2 from rfl]
      rw [harith]
      exact hrest

theorem runPosts_flagged (u : String) (W : Nat) (hu : u ≠ "") :
    ∀ (ts : List Nat) (st : Store) (f : Nat),
      (∀ t ∈ ts, t < (W + 1) * 60000) →
      lookupA st.flags u = some f → (W + 1) * 60000 ≤ f →
      ∀ r ∈ (runPosts u ts st).1, isDelayed r = true
  | [], st, f, _, _, _ => by simp [runPosts]
  | t :: ts, st, f, hts, hf, hfe => by
      have h1 := hts t (by simp)
      have hft : flagGet st u t = true := by
        simp [flagGet, hf]
        omega
      have hpt : postTask true (some u) t st =
          (.delayed (60000 - t % 60000), st, [(u, 60000 - t % 60000)]) := by
        simp [postTask, hu, hft]
      have hrun : (runPosts u (t :: ts) st).1 =
          .delayed (60000 - t % 60000) :: (runPosts u ts st).1 := by
        simp [runPosts, hpt]
      intro r hr
      rw [hrun] at hr
      rcases List.mem_cons.mp hr with h | h
      · subst h
        rfl
      · exact runPosts_flagged u W hu ts st f
          (fun t' ht' => hts t' (by simp [ht'])) hf hfe r h

/-- Claim C1: for one work key, over any sequence of admission calls whose
timestamps all lie in the fixed window W (the store starting with no Window
Counter yet for (u, W), as that key only exists during window W), at most
20 calls receive the 200 "Task queued successfully" response; and once the
post-increment Window Counter has exceeded 20 (after the calls ts1), every
further in-window call (ts2) receives the 429 delayed response for the rest
of the window. -/
theorem postTask_window_cap (u : String) (W : Nat) (ts1 ts2 : List Nat)
    (st : Store) (hu : u ≠ "")
    (hin : ∀ t ∈ ts1 ++ ts2, W * 60000 ≤ t ∧ t < (W + 1) * 60000)
    (hc0 : lookupA st.counters (u, W) = none) :
    countQueued (runPosts u (ts1 ++ ts2) st).1 ≤ 20 ∧
    (∀ c oe,
      lookupA (runPosts u ts1 st).2.counters (u, W) = some (c, oe) → 20 < c →
      ∀ r ∈ (runPosts u ts2 (runPosts u ts1 st).2).1, isDelayed r = true) := by
  have hInv0 : InvC1 u W 0 st := by simp [InvC1, hc0]
  constructor
  · have h := runPosts_inv u W hu (ts1 ++ ts2) st 0 hin hInv0
    cases hc : lookupA (runPosts u (ts1 ++ ts2) st).2.counters (u, W) with
    | none =>
      simp only [InvC1, hc] at h
      omega
    | some p =>
      obtain ⟨c, oe⟩ := p
      simp only [InvC1, hc] at h
      obtain ⟨-, -, h20, -⟩ := h
      omega
  · intro c oe hlook hc20 r hr
    have h1 := runPosts_inv u W hu ts1 st 0
      (fun t' ht' => hin t' (List.mem_append_left ts2 ht')) hInv0
    simp only [InvC1, hlook] at h1
    obtain ⟨-, -, -, hfl⟩ := h1
    obtain ⟨f, hf, hfe⟩ := hfl hc20
    exact runPosts_flagged u W hu ts2 (runPosts u ts1 st).2 f
      (fun t' ht' => (hin t' (List.mem_append_right ts1 ht')).2) hf hfe r hr

theorem postTask_window_cap_witness :
    countQueued
        (runPosts "123" ([0] ++ [1]) { counters := [], flags := [] }).1 ≤ 20 ∧
    (∀ c oe,
      lookupA (runPosts "123" [0]
          { counters := [], flags := [] }).2.counters ("123", 0) =
        some (c, oe) → 20 < c →
      ∀ r ∈ (runPosts "123" [1]
          (runPosts "123" [0] { counters := [], flags := [] }).2).1,
        isDelayed r = true) :=
  postTask_window_cap "123" 0 [0] [1] { counters := [], flags := [] }
    (by decide) (by decide) rfl

/- ### Claim C2: spacing between executor invocations -/

/-- An interleaving of four processor runs for the same key: run 1 acquires
at 0 and invokes at 0, but its task outlives the 5 s lease; run 2 acquires
the expired lock at 5500 and invokes at 5500 (no timestamp stored yet), its
task also slow; run 1 completes at 10500, writes lastExecution 10500 and
issues its delete; run 3 acquires at 11100, reads 10500 and sleeps 400 ms
(until 11500); run 2 completes at 11300, writes 11300, and its stale delete
removes run 3's live lease; run 4 then acquires at 11350, reads 11300,
sleeps 950 ms and invokes at 12300, only 800 ms after run 3's invocation at
11500. -/
def c2trace : List Ev :=
  [⟨0, 1, .acquire⟩, ⟨0, 1, .invoke⟩,
   ⟨5500, 2, .acquire⟩, ⟨5500, 2, .invoke⟩,
   ⟨10500, 1, .write⟩, ⟨10500, 1, .del⟩,
   ⟨11100, 3, .acquire⟩,
   ⟨11300, 2, .write⟩, ⟨11300, 2, .del⟩,
   ⟨11350, 4, .acquire⟩,
   ⟨11500, 3, .invoke⟩,
   ⟨12300, 4, .invoke⟩]

/-- Claim C2, counterexample: `c2trace` is a valid interleaved execution of
the processor code by concurrently running replicas (every step is enabled
per stepEv), yet two of its executor invocation times, 11500 and 12300, are
only 800 ms apart: a task that outlives the 5 s lock lease (line 52)
combined with the unconditional lock delete (lines 57-60) lets two
invocations for the same key occur less than 1000 ms apart, refuting the
claim for arbitrary replica concurrency. -/
theorem processJob_concurrent_spacing_cex :
    validTrace c2trace = true ∧
    invokeTimes c2trace = [0, 5500, 11500, 12300] ∧
    minGapOk (invokeTimes c2trace) = false := by
  refine ⟨rfl, rfl, rfl⟩


/- ### Claim C2, amended: spacing under the lease discipline -/

theorem spacingDelay_nonneg (lr : Option Int) (a : Int) :
    0 ≤ spacingDelay lr a := by
  cases lr with
  | none => simp [spacingDelay]
  | some w =>
    simp only [spacingDelay]
    exact le_max_right _ _

theorem spacingDelay_le_1000 (lr : Option Int) (a : Int)
    (h : ∀ w, lr = some w → w ≤ a) : spacingDelay lr a ≤ 1000 := by
  cases lr with
  | none => simp [spacingDelay]
  | some w =>
    have hw := h w rfl
    simp only [spacingDelay]
    exact max_le (by omega) (by omega)

theorem spacingDelay_some_ge (w a : Int) :
    w + 1000 ≤ a + spacingDelay (some w) a := by
  simp only [spacingDelay]
  have h := le_max_left (1000 - (a - w)) (0 : Int)
  omega

/-- The acquire time recorded in a run's program counter, when the run is
not finished. -/
def acqTimeOf : PState → Option Int
  | .acquired a _ => some a
  | .invoked a _ => some a
  | .written a => some a
  | .done => none

/-- Invariant of lease-respecting interleavings; `pI` is the time of the
latest executor invocation so far (none before the first). Clauses: the
latest invocation and the stored timestamp lie in the past (htime, hlast);
the latest invocation is covered either by a stored timestamp at least as
late or by the current holder's lease reaching 4000 ms past it (hsrc);
every acquired run read a timestamp from its past, is the lock holder
while its lease is live, and its pending invocation is either already
unreachable (before the current time) or at least 1000 ms after the latest
invocation (hacq); invoked and written runs are the lock holder while
their lease is live, a written run moreover guaranteeing the stored
timestamp dominates the latest invocation (hinv, hwr); distinct runs never
share an acquire time (hauniq). -/
structure TInv (s : TrState) (pI : Option Int) : Prop where
  htime : ∀ P, pI = some P → P ≤ s.time
  hlast : ∀ w, s.last = some w → w ≤ s.time
  hsrc : ∀ P, pI = some P →
    (∃ w, s.last = some w ∧ P ≤ w) ∨
    (∃ ex, s.lock = some ex ∧ P + 4000 ≤ ex)
  hacq : ∀ p a lr, lookupA s.procs p = some (.acquired a lr) →
    a ≤ s.time ∧ (∀ w, lr = some w → w ≤ a) ∧
    (s.time < a + 5000 → s.lock = some (a + 5000)) ∧
    (a + spacingDelay lr a < s.time ∨
      ∀ P, pI = some P → P + 1000 ≤ a + spacingDelay lr a)
  hinv : ∀ p a i, lookupA s.procs p = some (.invoked a i) →
    a ≤ s.time ∧ (s.time < a + 5000 → s.lock = some (a + 5000))
  hwr : ∀ p a, lookupA s.procs p = some (.written a) →
    a ≤ s.time ∧ (s.time < a + 5000 → s.lock = some (a + 5000) ∧
      ∃ w, s.last = some w ∧ ∀ P, pI = some P → P ≤ w)
  hauniq : ∀ p1 p2 ps1 ps2 a, lookupA s.procs p1 = some ps1 →
    lookupA s.procs p2 = some ps2 → acqTimeOf ps1 = some a →
    acqTimeOf ps2 = some a → p1 = p2

theorem TInv_init : TInv traceInit none := by
  refine ⟨?_, ?_, ?_, ?_, ?_, ?_, ?_⟩ <;> intros <;>
    simp_all [traceInit, lookupA]

theorem stepEv_acquire_inv (s : TrState) (t : Int) (pid : Nat) (s1 : TrState)
    (h : stepEv s ⟨t, pid, .acquire⟩ = some s1) :
    s.time ≤ t ∧ lookupA s.procs pid = none ∧
    (∀ ex, s.lock = some ex → ex ≤ t) ∧
    s1 = { lock := some (t + 5000), last := s.last,
           procs := setA s.procs pid (.acquired t s.last), time := t } := by
  simp only [stepEv] at h
  split at h
  · exact absurd h (by simp)
  · rename_i hts
    split at h
    · exact absurd h (by simp)
    · rename_i hps
      split at h
      · rename_i ex hex
        split at h
        · exact absurd h (by simp)
        · rename_i hext
          injection h with h1
          refine ⟨by omega, hps, ?_, h1.symm⟩
          intro ex' hex'
          rw [hex] at hex'
          injection hex' with h2
          omega
      · rename_i hex
        injection h with h1
        refine ⟨by omega, hps, ?_, h1.symm⟩
        intro ex' hex'
        rw [hex] at hex'
        exact absurd hex' (by simp)

theorem stepEv_invoke_inv (s : TrState) (t : Int) (pid : Nat) (s1 : TrState)
    (h : stepEv s ⟨t, pid, .invoke⟩ = some s1) :
    ∃ a lr, s.time ≤ t ∧ lookupA s.procs pid = some (.acquired a lr) ∧
      t = a + spacingDelay lr a ∧
      s1 = { s with procs := setA s.procs pid (.invoked a t), time := t } := by
  simp only [stepEv] at h
  split at h
  · exact absurd h (by simp)
  · rename_i hts
    split at h
    · rename_i a lr hps
      split at h
      · rename_i heqt
        injection h with h1
        exact ⟨a, lr, by omega, hps, heqt, h1.symm⟩
      · exact absurd h (by simp)
    · exact absurd h (by simp)

theorem stepEv_write_inv (s : TrState) (t : Int) (pid : Nat) (s1 : TrState)
    (h : stepEv s ⟨t, pid, .write⟩ = some s1) :
    ∃ a i, s.time ≤ t ∧ lookupA s.procs pid = some (.invoked a i) ∧ i ≤ t ∧
      s1 = TrState.mk s.lock (some t) (setA s.procs pid (.written a)) t := by
  simp only [stepEv] at h
  split at h
  · exact absurd h (by simp)
  · rename_i hts
    split at h
    · rename_i a i hps
      split at h
      · rename_i hit
        injection h with h1
        exact ⟨a, i, by omega, hps, hit, h1.symm⟩
      · exact absurd h (by simp)
    · exact absurd h (by simp)

theorem stepEv_del_inv (s : TrState) (t : Int) (pid : Nat) (s1 : TrState)
    (h : stepEv s ⟨t, pid, .del⟩ = some s1) :
    ∃ a, s.time ≤ t ∧ lookupA s.procs pid = some (.written a) ∧
      s1 = TrState.mk none s.last (setA s.procs pid .done) t := by
  simp only [stepEv] at h
  split at h
  · exact absurd h (by simp)
  · rename_i hts
    split at h
    · rename_i a hps
      injection h with h1
      exact ⟨a, by omega, hps, h1.symm⟩
    · exact absurd h (by simp)

theorem TInv_acquire (s : TrState) (pI : Option Int) (hInv : TInv s pI)
    (pid : Nat) (t : Int) (ht : s.time ≤ t)
    (hpl : lookupA s.procs pid = none)
    (hlk : ∀ ex, s.lock = some ex → ex ≤ t) :
    TInv (TrState.mk (some (t + 5000)) s.last
      (setA s.procs pid (.acquired t s.last)) t) pI := by
  have hkill : ∀ p ps a, lookupA s.procs p = some ps → acqTimeOf ps = some a →
      a + 5000 ≤ t := by
    intro p ps a hp ha
    by_cases hin : s.time < a + 5000
    · cases ps with
      | acquired a0 lr0 =>
        injection ha with ha0
        rw [ha0] at hp
        exact hlk _ ((hInv.hacq p a lr0 hp).2.2.1 hin)
      | invoked a0 i0 =>
        injection ha with ha0
        rw [ha0] at hp
        exact hlk _ ((hInv.hinv p a i0 hp).2 hin)
      | written a0 =>
        injection ha with ha0
        rw [ha0] at hp
        exact hlk _ ((hInv.hwr p a hp).2 hin).1
      | done => exact absurd ha (by simp [acqTimeOf])
    · omega
  refine ⟨?_, ?_, ?_, ?_, ?_, ?_, ?_⟩
  · intro P hP
    have := hInv.htime P hP
    dsimp only
    omega
  · intro w hw
    dsimp only at hw ⊢
    have := hInv.hlast w hw
    omega
  · intro P hP
    right
    refine ⟨t + 5000, rfl, ?_⟩
    have := hInv.htime P hP
    omega
  · intro p a' lr' hp
    dsimp only at hp ⊢
    by_cases hpe : p = pid
    · subst hpe
      rw [lookupA_setA_self] at hp
      injection hp with hps
      injection hps with h1 h2
      subst h1
      subst h2
      refine ⟨le_refl t, ?_, fun _ => rfl, ?_⟩
      · intro w hw
        have := hInv.hlast w hw
        omega
      · right
        intro P hP
        rcases hInv.hsrc P hP with ⟨w, hw, hPw⟩ | ⟨ex, hex, hPex⟩
        · rw [hw]
          have := spacingDelay_some_ge w t
          omega
        · have h1 := hlk ex hex
          have h2 := spacingDelay_nonneg s.last t
          omega
    · rw [lookupA_setA_ne s.procs pid p _ hpe] at hp
      obtain ⟨hb1, hb2, hb3, hb4⟩ := hInv.hacq p a' lr' hp
      have hk : a' + 5000 ≤ t := hkill p _ a' hp rfl
      have hd := spacingDelay_le_1000 lr' a' hb2
      refine ⟨by omega, hb2, ?_, ?_⟩
      · intro habs
        exact absurd habs (by omega)
      · left
        omega
  · intro p a' i' hp
    dsimp only at hp ⊢
    by_cases hpe : p = pid
    · subst hpe
      rw [lookupA_setA_self] at hp
      exact absurd hp (by simp)
    · rw [lookupA_setA_ne s.procs pid p _ hpe] at hp
      have hk : a' + 5000 ≤ t := hkill p _ a' hp rfl
      obtain ⟨hc1, hc2⟩ := hInv.hinv p a' i' hp
      exact ⟨by omega, fun habs => absurd habs (by omega)⟩
  · intro p a' hp
    dsimp only at hp ⊢
    by_cases hpe : p = pid
    · subst hpe
      rw [lookupA_setA_self] at hp
      exact absurd hp (by simp)
    · rw [lookupA_setA_ne s.procs pid p _ hpe] at hp
      have hk : a' + 5000 ≤ t := hkill p _ a' hp rfl
      obtain ⟨hd1, hd2⟩ := hInv.hwr p a' hp
      exact ⟨by omega, fun habs => absurd habs (by omega)⟩
  · intro p1 p2 ps1 ps2 a0 hp1 hp2 ha1 ha2
    dsimp only at hp1 hp2
    by_cases h1 : p1 = pid <;> by_cases h2 : p2 = pid
    · rw [h1, h2]
    · rw [h1] at hp1
      rw [lookupA_setA_self] at hp1
      injection hp1 with hps1
      rw [lookupA_setA_ne s.procs pid p2 _ h2] at hp2
      rw [← hps1] at ha1
      simp only [acqTimeOf] at ha1
      injection ha1 with ha1'
      have hk := hkill p2 ps2 a0 hp2 ha2
      exact absurd hk (by omega)
    · rw [h2] at hp2
      rw [lookupA_setA_self] at hp2
      injection hp2 with hps2
      rw [lookupA_setA_ne s.procs pid p1 _ h1] at hp1
      rw [← hps2] at ha2
      simp only [acqTimeOf] at ha2
      injection ha2 with ha2'
      have hk := hkill p1 ps1 a0 hp1 ha1
      exact absurd hk (by omega)
    · rw [lookupA_setA_ne s.procs pid p1 _ h1] at hp1
      rw [lookupA_setA_ne s.procs pid p2 _ h2] at hp2
      exact hInv.hauniq p1 p2 ps1 ps2 a0 hp1 hp2 ha1 ha2

theorem TInv_excl (s : TrState) (pI : Option Int) (hInv : TInv s pI)
    (pid : Nat) (psh : PState) (ah : Int)
    (hph : lookupA s.procs pid = some psh) (hah : acqTimeOf psh = some ah)
    (hhold : s.lock = some (ah + 5000)) :
    ∀ p ps a', p ≠ pid → lookupA s.procs p = some ps →
      acqTimeOf ps = some a' → s.time < a' + 5000 → False := by
  intro p ps a' hne hp ha' hin
  have hlock' : s.lock = some (a' + 5000) := by
    cases ps with
    | acquired a0 lr0 =>
      injection ha' with h0
      rw [h0] at hp
      exact (hInv.hacq p a' lr0 hp).2.2.1 hin
    | invoked a0 i0 =>
      injection ha' with h0
      rw [h0] at hp
      exact (hInv.hinv p a' i0 hp).2 hin
    | written a0 =>
      injection ha' with h0
      rw [h0] at hp
      exact ((hInv.hwr p a' hp).2 hin).1
    | done => exact absurd ha' (by simp [acqTimeOf])
  rw [hhold] at hlock'
  injection hlock' with h5
  have ha'h : a' = ah := by omega
  rw [ha'h] at ha'
  exact hne (hInv.hauniq p pid ps psh ah hp hph ha' hah)

theorem TInv_invoke (s : TrState) (pI : Option Int) (hInv : TInv s pI)
    (pid : Nat) (a : Int) (lr : Option Int) (t : Int) (ht : s.time ≤ t)
    (hpl : lookupA s.procs pid = some (.acquired a lr))
    (hit : t = a + spacingDelay lr a) :
    (∀ P, pI = some P → P + 1000 ≤ t) ∧
    TInv (TrState.mk s.lock s.last (setA s.procs pid (.invoked a t)) t)
      (some t) := by
  obtain ⟨ha1, ha2, ha3, ha4⟩ := hInv.hacq pid a lr hpl
  have hd0 := spacingDelay_nonneg lr a
  have hd1 := spacingDelay_le_1000 lr a ha2
  have hgap : ∀ P, pI = some P → P + 1000 ≤ t := by
    intro P hP
    rcases ha4 with hbar | hg
    · omega
    · have := hg P hP
      omega
  have hhold : s.lock = some (a + 5000) := ha3 (by omega)
  have hexcl := TInv_excl s pI hInv pid (.acquired a lr) a hpl
    (by simp [acqTimeOf]) hhold
  refine ⟨hgap, ?_, ?_, ?_, ?_, ?_, ?_, ?_⟩
  · intro P hP
    injection hP with h
    dsimp only
    omega
  · intro w hw
    dsimp only at hw ⊢
    have := hInv.hlast w hw
    omega
  · intro P hP
    injection hP with h
    right
    refine ⟨a + 5000, hhold, ?_⟩
    omega
  · intro p a' lr' hp
    dsimp only at hp ⊢
    by_cases hpe : p = pid
    · rw [hpe] at hp
      rw [lookupA_setA_self] at hp
      exact absurd hp (by simp)
    · rw [lookupA_setA_ne s.procs pid p _ hpe] at hp
      obtain ⟨hb1, hb2, hb3, hb4⟩ := hInv.hacq p a' lr' hp
      have hd1' := spacingDelay_le_1000 lr' a' hb2
      refine ⟨by omega, hb2, ?_, ?_⟩
      · intro hin
        exact (hexcl p _ a' hpe hp (by simp [acqTimeOf]) (by omega)).elim
      · by_cases hbar : a' + spacingDelay lr' a' < s.time
        · left
          omega
        · exact (hexcl p _ a' hpe hp (by simp [acqTimeOf]) (by omega)).elim
  · intro p a' i' hp
    dsimp only at hp ⊢
    by_cases hpe : p = pid
    · rw [hpe] at hp
      rw [lookupA_setA_self] at hp
      injection hp with hps
      injection hps with h1 h2
      refine ⟨by omega, ?_⟩
      intro hin
      rw [← h1]
      exact hhold
    · rw [lookupA_setA_ne s.procs pid p _ hpe] at hp
      obtain ⟨hc1, hc2⟩ := hInv.hinv p a' i' hp
      refine ⟨by omega, ?_⟩
      intro hin
      exact (hexcl p _ a' hpe hp (by simp [acqTimeOf]) (by omega)).elim
  · intro p a' hp
    dsimp only at hp ⊢
    by_cases hpe : p = pid
    · rw [hpe] at hp
      rw [lookupA_setA_self] at hp
      exact absurd hp (by simp)
    · rw [lookupA_setA_ne s.procs pid p _ hpe] at hp
      obtain ⟨hd1', hd2'⟩ := hInv.hwr p a' hp
      refine ⟨by omega, ?_⟩
      intro hin
      exact (hexcl p _ a' hpe hp (by simp [acqTimeOf]) (by omega)).elim
  · intro p1 p2 ps1 ps2 a0 hp1 hp2 ha1' ha2'
    dsimp only at hp1 hp2
    by_cases h1 : p1 = pid <;> by_cases h2 : p2 = pid
    · rw [h1, h2]
    · rw [h1] at hp1
      rw [lookupA_setA_self] at hp1
      injection hp1 with hps1
      rw [lookupA_setA_ne s.procs pid p2 _ h2] at hp2
      rw [← hps1] at ha1'
      simp only [acqTimeOf] at ha1'
      injection ha1' with hae
      rw [h1]
      exact hInv.hauniq pid p2 (.acquired a lr) ps2 a0 hpl hp2
        (by simp [acqTimeOf, hae]) ha2'
    · rw [h2] at hp2
      rw [lookupA_setA_self] at hp2
      injection hp2 with hps2
      rw [lookupA_setA_ne s.procs pid p1 _ h1] at hp1
      rw [← hps2] at ha2'
      simp only [acqTimeOf] at ha2'
      injection ha2' with hae
      rw [h2]
      exact hInv.hauniq p1 pid ps1 (.acquired a lr) a0 hp1 hpl ha1'
        (by simp [acqTimeOf, hae])
    · rw [lookupA_setA_ne s.procs pid p1 _ h1] at hp1
      rw [lookupA_setA_ne s.procs pid p2 _ h2] at hp2
      exact hInv.hauniq p1 p2 ps1 ps2 a0 hp1 hp2 ha1' ha2'

theorem TInv_write (s : TrState) (pI : Option Int) (hInv : TInv s pI)
    (pid : Nat) (a i t : Int) (ht : s.time ≤ t)
    (hpl : lookupA s.procs pid = some (.invoked a i))
    (hlease : t < a + 5000) :
    TInv (TrState.mk s.lock (some t) (setA s.procs pid (.written a)) t) pI := by
  obtain ⟨ha1, ha2⟩ := hInv.hinv pid a i hpl
  have hhold : s.lock = some (a + 5000) := ha2 (by omega)
  have hexcl := TInv_excl s pI hInv pid (.invoked a i) a hpl
    (by simp [acqTimeOf]) hhold
  refine ⟨?_, ?_, ?_, ?_, ?_, ?_, ?_⟩
  · intro P hP
    dsimp only
    have := hInv.htime P hP
    omega
  · intro w hw
    dsimp only at hw ⊢
    injection hw with h
    omega
  · intro P hP
    left
    refine ⟨t, rfl, ?_⟩
    have := hInv.htime P hP
    omega
  · intro p a' lr' hp
    dsimp only at hp ⊢
    by_cases hpe : p = pid
    · rw [hpe] at hp
      rw [lookupA_setA_self] at hp
      exact absurd hp (by simp)
    · rw [lookupA_setA_ne s.procs pid p _ hpe] at hp
      obtain ⟨hb1, hb2, hb3, hb4⟩ := hInv.hacq p a' lr' hp
      have hd1' := spacingDelay_le_1000 lr' a' hb2
      refine ⟨by omega, hb2, ?_, ?_⟩
      · intro hin
        exact (hexcl p _ a' hpe hp (by simp [acqTimeOf]) (by omega)).elim
      · by_cases hbar : a' + spacingDelay lr' a' < s.time
        · left
          omega
        · exact (hexcl p _ a' hpe hp (by simp [acqTimeOf]) (by omega)).elim
  · intro p a' i' hp
    dsimp only at hp ⊢
    by_cases hpe : p = pid
    · rw [hpe] at hp
      rw [lookupA_setA_self] at hp
      exact absurd hp (by simp)
    · rw [lookupA_setA_ne s.procs pid p _ hpe] at hp
      obtain ⟨hc1, hc2⟩ := hInv.hinv p a' i' hp
      refine ⟨by omega, ?_⟩
      intro hin
      exact (hexcl p _ a' hpe hp (by simp [acqTimeOf]) (by omega)).elim
  · intro p a' hp
    dsimp only at hp ⊢
    by_cases hpe : p = pid
    · rw [hpe] at hp
      rw [lookupA_setA_self] at hp
      injection hp with hps
      injection hps with h1
      refine ⟨by omega, ?_⟩
      intro hin
      refine ⟨?_, t, rfl, ?_⟩
      · rw [← h1]
        exact hhold
      · intro P hP
        have := hInv.htime P hP
        omega
    · rw [lookupA_setA_ne s.procs pid p _ hpe] at hp
      obtain ⟨hd1', hd2'⟩ := hInv.hwr p a' hp
      refine ⟨by omega, ?_⟩
      intro hin
      exact (hexcl p _ a' hpe hp (by simp [acqTimeOf]) (by omega)).elim
  · intro p1 p2 ps1 ps2 a0 hp1 hp2 ha1' ha2'
    dsimp only at hp1 hp2
    by_cases h1 : p1 = pid <;> by_cases h2 : p2 = pid
    · rw [h1, h2]
    · rw [h1] at hp1
      rw [lookupA_setA_self] at hp1
      injection hp1 with hps1
      rw [lookupA_setA_ne s.procs pid p2 _ h2] at hp2
      rw [← hps1] at ha1'
      simp only [acqTimeOf] at ha1'
      injection ha1' with hae
      rw [h1]
      exact hInv.hauniq pid p2 (.invoked a i) ps2 a0 hpl hp2
        (by simp [acqTimeOf, hae]) ha2'
    · rw [h2] at hp2
      rw [lookupA_setA_self] at hp2
      injection hp2 with hps2
      rw [lookupA_setA_ne s.procs pid p1 _ h1] at hp1
      rw [← hps2] at ha2'
      simp only [acqTimeOf] at ha2'
      injection ha2' with hae
      rw [h2]
      exact hInv.hauniq p1 pid ps1 (.invoked a i) a0 hp1 hpl ha1'
        (by simp [acqTimeOf, hae])
    · rw [lookupA_setA_ne s.procs pid p1 _ h1] at hp1
      rw [lookupA_setA_ne s.procs pid p2 _ h2] at hp2
      exact hInv.hauniq p1 p2 ps1 ps2 a0 hp1 hp2 ha1' ha2'

theorem TInv_del (s : TrState) (pI : Option Int) (hInv : TInv s pI)
    (pid : Nat) (a t : Int) (ht : s.time ≤ t)
    (hpl : lookupA s.procs pid = some (.written a))
    (hlease : t < a + 5000) :
    TInv (TrState.mk none s.last (setA s.procs pid .done) t) pI := by
  obtain ⟨ha1, h2⟩ := hInv.hwr pid a hpl
  obtain ⟨hhold, w, hw, hwP⟩ := h2 (by omega)
  have hexcl := TInv_excl s pI hInv pid (.written a) a hpl
    (by simp [acqTimeOf]) hhold
  refine ⟨?_, ?_, ?_, ?_, ?_, ?_, ?_⟩
  · intro P hP
    dsimp only
    have := hInv.htime P hP
    omega
  · intro w' hw'
    dsimp only at hw' ⊢
    have := hInv.hlast w' hw'
    omega
  · intro P hP
    left
    exact ⟨w, hw, hwP P hP⟩
  · intro p a' lr' hp
    dsimp only at hp ⊢
    by_cases hpe : p = pid
    · rw [hpe] at hp
      rw [lookupA_setA_self] at hp
      exact absurd hp (by simp)
    · rw [lookupA_setA_ne s.procs pid p _ hpe] at hp
      obtain ⟨hb1, hb2, hb3, hb4⟩ := hInv.hacq p a' lr' hp
      have hd1' := spacingDelay_le_1000 lr' a' hb2
      refine ⟨by omega, hb2, ?_, ?_⟩
      · intro hin
        exact (hexcl p _ a' hpe hp (by simp [acqTimeOf]) (by omega)).elim
      · by_cases hbar : a' + spacingDelay lr' a' < s.time
        · left
          omega
        · exact (hexcl p _ a' hpe hp (by simp [acqTimeOf]) (by omega)).elim
  · intro p a' i' hp
    dsimp only at hp ⊢
    by_cases hpe : p = pid
    · rw [hpe] at hp
      rw [lookupA_setA_self] at hp
      exact absurd hp (by simp)
    · rw [lookupA_setA_ne s.procs pid p _ hpe] at hp
      obtain ⟨hc1, hc2⟩ := hInv.hinv p a' i' hp
      refine ⟨by omega, ?_⟩
      intro hin
      exact (hexcl p _ a' hpe hp (by simp [acqTimeOf]) (by omega)).elim
  · intro p a' hp
    dsimp only at hp ⊢
    by_cases hpe : p = pid
    · rw [hpe] at hp
      rw [lookupA_setA_self] at hp
      exact absurd hp (by simp)
    · rw [lookupA_setA_ne s.procs pid p _ hpe] at hp
      obtain ⟨hd1', hd2'⟩ := hInv.hwr p a' hp
      refine ⟨by omega, ?_⟩
      intro hin
      exact (hexcl p _ a' hpe hp (by simp [acqTimeOf]) (by omega)).elim
  · intro p1 p2 ps1 ps2 a0 hp1 hp2 ha1' ha2'
    dsimp only at hp1 hp2
    by_cases h1 : p1 = pid <;> by_cases h2 : p2 = pid
    · rw [h1, h2]
    · rw [h1] at hp1
      rw [lookupA_setA_self] at hp1
      injection hp1 with hps1
      rw [← hps1] at ha1'
      simp [acqTimeOf] at ha1'
    · rw [h2] at hp2
      rw [lookupA_setA_self] at hp2
      injection hp2 with hps2
      rw [← hps2] at ha2'
      simp [acqTimeOf] at ha2'
    · rw [lookupA_setA_ne s.procs pid p1 _ h1] at hp1
      rw [lookupA_setA_ne s.procs pid p2 _ h2] at hp2
      exact hInv.hauniq p1 p2 ps1 ps2 a0 hp1 hp2 ha1' ha2'

/-- Chain check seeded by an optional previous invocation time. -/
def gapOkFromO : Option Int → List Int → Bool
  | none, [] => true
  | none, i :: l => minGapOkFrom i l
  | some P, l => minGapOkFrom P l

theorem runTraceLease_gap :
    ∀ (evs : List Ev) (s : TrState) (pI : Option Int), TInv s pI →
      (runTraceLease evs s).isSome = true →
      gapOkFromO pI (invokeTimes evs) = true
  | [], _, pI, _, _ => by cases pI <;> rfl
  | e :: evs, s, pI, hInv, hrun => by
      obtain ⟨t, pid, act⟩ := e
      rw [runTraceLease] at hrun
      by_cases hlease : evLeaseOk s ⟨t, pid, act⟩ = true
      · rw [if_pos hlease] at hrun
        cases hstep : stepEv s ⟨t, pid, act⟩ with
        | none =>
          rw [hstep] at hrun
          exact absurd hrun (by simp)
        | some s1 =>
          rw [hstep] at hrun
          replace hrun : (runTraceLease evs s1).isSome = true := hrun
          cases act with
          | acquire =>
            obtain ⟨ht, hpl, hlk, hs1⟩ := stepEv_acquire_inv s t pid s1 hstep
            subst hs1
            have hInv1 := TInv_acquire s pI hInv pid t ht hpl hlk
            have hrec := runTraceLease_gap evs _ pI hInv1 hrun
            simpa [invokeTimes, List.filterMap_cons] using hrec
          | invoke =>
            obtain ⟨a, lr, ht, hpl, heqt, hs1⟩ :=
              stepEv_invoke_inv s t pid s1 hstep
            subst hs1
            obtain ⟨hgap, hInv1⟩ := TInv_invoke s pI hInv pid a lr t ht hpl heqt
            have hrec := runTraceLease_gap evs _ (some t) hInv1 hrun
            have hcons : invokeTimes (⟨t, pid, Act.invoke⟩ :: evs) =
                t :: invokeTimes evs := by
              simp [invokeTimes, List.filterMap_cons]
            rw [hcons]
            have hrec' : minGapOkFrom t (invokeTimes evs) = true := hrec
            cases pI with
            | none => exact hrec'
            | some P =>
              have hPt := hgap P rfl
              show minGapOkFrom P (t :: invokeTimes evs) = true
              rw [minGapOkFrom]
              simp [hPt, hrec']
          | write =>
            obtain ⟨a, i, ht, hpl, hit, hs1⟩ := stepEv_write_inv s t pid s1 hstep
            have hle : t < a + 5000 := by
              simp [evLeaseOk, hpl] at hlease
              exact hlease
            subst hs1
            have hInv1 := TInv_write s pI hInv pid a i t ht hpl hle
            have hrec := runTraceLease_gap evs _ pI hInv1 hrun
            simpa [invokeTimes, List.filterMap_cons] using hrec
          | del =>
            obtain ⟨a, ht, hpl, hs1⟩ := stepEv_del_inv s t pid s1 hstep
            have hle : t < a + 5000 := by
              simp [evLeaseOk, hpl] at hlease
              exact hlease
            subst hs1
            have hInv1 := TInv_del s pI hInv pid a t ht hpl hle
            have hrec := runTraceLease_gap evs _ pI hInv1 hrun
            simpa [invokeTimes, List.filterMap_cons] using hrec
      · rw [if_neg hlease] at hrun
        exact absurd hrun (by simp)

theorem runTraceLease_valid :
    ∀ (evs : List Ev) (s : TrState),
      (runTraceLease evs s).isSome = true →
      (evs.foldlM stepEv s).isSome = true
  | [], _, h => h
  | e :: evs, s, h => by
      rw [runTraceLease] at h
      by_cases hl : evLeaseOk s e = true
      · rw [if_pos hl] at h
        cases hstep : stepEv s e with
        | none =>
          rw [hstep] at h
          exact absurd h (by simp)
        | some s1 =>
          rw [hstep] at h
          replace h : (runTraceLease evs s1).isSome = true := h
          have := runTraceLease_valid evs s1 h
          rw [List.foldlM_cons, hstep]
          simpa using this
      · rw [if_neg hl] at h
        exact absurd h (by simp)

/-- Claim C2 (amended): for any number of concurrently running scheduler
replicas and any interleaving of their processor runs - runs whose executor
throws included (they never reach the timestamp write or the lock delete
and simply hold their lease to expiry) - if every run that does write its
timestamp and delete the lock does so while its own 5 s lease is still
live (the discipline runTraceLease checks: no task outlives its lease,
which is the assumption under which the spec sizes the lock TTL as a bound
on worst-case task duration), then the interleaving is a valid execution of
the processor code and no two Task Executor invocations for the key are
separated by less than 1000 ms. Violating the lease bound is exactly what
the counterexample trace does. -/
theorem processJob_leased_spacing (evs : List Ev)
    (hrun : (runTraceLease evs traceInit).isSome = true) :
    validTrace evs = true ∧ minGapOk (invokeTimes evs) = true := by
  constructor
  · exact runTraceLease_valid evs traceInit hrun
  · have h := runTraceLease_gap evs traceInit none TInv_init hrun
    cases hl : invokeTimes evs with
    | nil => rfl
    | cons i l =>
      rw [hl] at h
      exact h

/-- A lease-respecting interleaving with contention, including a run whose
executor fails: run 1 acquires at 0, invokes at 0, writes 300 and releases;
run 2 acquires at 350, reads 300, sleeps 950 ms, invokes at 1300, writes
1400 and releases; run 3 acquires at 1500, reads 1400, invokes at 2400 and
then fails (no write, no release), so its lease runs to 6500; run 4
acquires at the expiry 6500 and invokes immediately. -/
def leasedTrace : List Ev :=
  [⟨0, 1, .acquire⟩, ⟨0, 1, .invoke⟩, ⟨300, 1, .write⟩, ⟨300, 1, .del⟩,
   ⟨350, 2, .acquire⟩, ⟨1300, 2, .invoke⟩, ⟨1400, 2, .write⟩, ⟨1400, 2, .del⟩,
   ⟨1500, 3, .acquire⟩, ⟨2400, 3, .invoke⟩,
   ⟨6500, 4, .acquire⟩, ⟨6500, 4, .invoke⟩]

theorem processJob_leased_spacing_witness :
    validTrace leasedTrace = true ∧
    minGapOk (invokeTimes leasedTrace) = true :=
  processJob_leased_spacing leasedTrace (by rfl)
